import Mathlib

/-!
Verification of the `no-defined-arbitrary-value` rule of eslint-plugin-tailwindcss.

The development shallowly embeds the three source files of the repository:

* `src/tests/lib/rules/no-defined-arbitrary-value.js` (appended `traverseObject`
  utility): depth-first traversal of a nested theme object, collecting leaves.
* `src/lib/rules/no-defined-arbitrary-value.js`: the rule itself — theme index
  construction in `create`, the recursive `parseForArbitraryValues` walker over
  expression shapes, the arbitrary-value matcher and fixer.
* `src/lib/util/splitWithIndex.js`: a split utility returning values together
  with their source indices.

JavaScript strings are modelled as `List Char` (an index is a position in the
list), nested theme objects as a mutual inductive `JSValue`/`JSEntries`
(JS object keys enumerate in insertion order, so entries are an ordered list;
arrays are modelled by reference identity, as JS `Map` compares object keys by
reference), and the JS `Map` from `create` as an insertion-ordered association
list.
-/

namespace NDAV

mutual

/-- A JavaScript value as it can occur inside the resolved `theme.colors`
object: a string leaf, `null`, an array (identified by reference, since the
traversal never inspects array contents and `Map` keys compare arrays by
reference), or a plain nested object with insertion-ordered entries. -/
inductive JSValue where
  | str (s : List Char)
  | jnull
  | arrRef (ref : Nat)
  | obj (entries : JSEntries)
deriving DecidableEq

inductive JSEntries where
  | enil
  | econs (key : List Char) (value : JSValue) (rest : JSEntries)
deriving DecidableEq

end

/-- Function `traverseObject` from the repository (appended to the test file): iterate
the keys of `obj` in enumeration order; for a value that is a plain object
(`typeof value === "object" && value !== null && !Array.isArray(value)`)
recurse with the path extended by the key, otherwise invoke the callback with
`(value, newPath)`.  The embedding returns the list of callback invocations
`(value, path)` in invocation order. -/
def traverseEntries : JSEntries → List (List Char) → List (JSValue × List (List Char))
  | .enil, _ => []
  | .econs k v rest, path =>
      (match v with
       | .obj e => traverseEntries e (path ++ [k])
       | w => [(w, path ++ [k])]) ++ traverseEntries rest path

/-- The expression `path.join("-")` from `create`. -/
def joinDash (path : List (List Char)) : List Char :=
  List.intercalate ['-'] path

/-- The `Map` built by `create`, from a leaf value to the ordered list of
dash-joined paths producing it. -/
abbrev ThemeIndex := List (JSValue × List (List Char))

/-- One step of the collector callback in `create`: `map.has(value)` appends
`path.join("-")` to the existing entry (`pathList.push`), otherwise a new
entry `[path.join("-")]` is inserted (`map.set`, which appends the key in
insertion order). -/
def insertPath (m : ThemeIndex) (v : JSValue) (p : List Char) : ThemeIndex :=
  match m with
  | [] => [(v, [p])]
  | (k, ps) :: rest => if k = v then (k, ps ++ [p]) :: rest else (k, ps) :: insertPath rest v p

/-- Lookup `map.get` / `map.has` on the theme index. -/
def lookupIndex : ThemeIndex → JSValue → Option (List (List Char))
  | [], _ => none
  | (k, ps) :: rest, v => if k = v then some ps else lookupIndex rest v

/-- Fold the collector over the callback invocations of `traverseObject`. -/
def indexFromLeaves (leaves : List (JSValue × List (List Char))) : ThemeIndex :=
  leaves.foldl (fun m lv => insertPath m lv.1 (joinDash lv.2)) []

/-- The theme index construction in `create`
(`traverseObject(mergedConfig.theme.colors, …)` filling the fresh `Map`). -/
def buildThemeIndex (colors : JSEntries) : ThemeIndex :=
  indexFromLeaves (traverseEntries colors [])

/-- Calling `Object.keys(undefined)` throws a `TypeError` in JavaScript; this is the
message text. -/
def jsTypeErrorMsg : List Char :=
  "TypeError: Cannot convert undefined or null to object".data

/-- Index construction at the `create` call site, with the possibility that
`mergedConfig.theme.colors` is absent: `traverseObject` immediately calls
`Object.keys(obj)`, which throws a `TypeError` when `obj` is `undefined`. -/
def buildIndexFromColors : Option JSEntries → Except (List Char) ThemeIndex
  | none => .error jsTypeErrorMsg
  | some colors => .ok (buildThemeIndex colors)

/-- The traversal of `traverseObject` as a relation between the traversed
object, the current path, and the emitted `(value, path)` callback sequence.
The side-effecting callback protocol of the source is captured step by step:
each `econs` either recurses into a plain-object value or emits one leaf. -/
inductive TraverseRel : JSEntries → List (List Char) → List (JSValue × List (List Char)) → Prop where
  | nilE (path : List (List Char)) : TraverseRel .enil path []
  | consObj (k : List Char) (e rest : JSEntries) (path : List (List Char))
      (l₁ l₂ : List (JSValue × List (List Char))) :
      TraverseRel e (path ++ [k]) l₁ → TraverseRel rest path l₂ →
      TraverseRel (.econs k (.obj e) rest) path (l₁ ++ l₂)
  | consLeaf (k : List Char) (v : JSValue) (rest : JSEntries) (path : List (List Char))
      (l : List (JSValue × List (List Char))) :
      (∀ e, v ≠ JSValue.obj e) → TraverseRel rest path l →
      TraverseRel (.econs k v rest) path ((v, path ++ [k]) :: l)

/-- A complete run of the index construction of `create`: a traversal of the
colors object feeding the collector callback into a fresh `Map`. -/
inductive BuildsIndex : JSEntries → ThemeIndex → Prop where
  | mk (colors : JSEntries) (leaves : List (JSValue × List (List Char))) :
      TraverseRel colors [] leaves → BuildsIndex colors (indexFromLeaves leaves)

theorem traverseRel_total (entries : JSEntries) (path : List (List Char)) :
    TraverseRel entries path (traverseEntries entries path) := by
  match entries with
  | .enil => exact TraverseRel.nilE path
  | .econs k v rest =>
      match v with
      | .obj e =>
          exact TraverseRel.consObj k e rest path _ _
            (traverseRel_total e (path ++ [k])) (traverseRel_total rest path)
      | .str s =>
          exact TraverseRel.consLeaf k _ rest path _ (by intro e h; cases h)
            (traverseRel_total rest path)
      | .jnull =>
          exact TraverseRel.consLeaf k _ rest path _ (by intro e h; cases h)
            (traverseRel_total rest path)
      | .arrRef r =>
          exact TraverseRel.consLeaf k _ rest path _ (by intro e h; cases h)
            (traverseRel_total rest path)

theorem traverseRel_det {entries : JSEntries} {path : List (List Char)}
    {l₁ l₂ : List (JSValue × List (List Char))}
    (h₁ : TraverseRel entries path l₁) (h₂ : TraverseRel entries path l₂) : l₁ = l₂ := by
  induction h₁ generalizing l₂ with
  | nilE path => cases h₂; rfl
  | consObj k e rest path a b _ _ ih₁ ih₂ =>
      cases h₂ with
      | consObj _ _ _ _ a' b' he hr => rw [ih₁ he, ih₂ hr]
      | consLeaf _ _ _ _ _ hne _ => exact absurd rfl (hne e)
  | consLeaf k v rest path l hne _ ih =>
      cases h₂ with
      | consObj _ _ _ _ _ _ _ _ => exact absurd rfl (hne _)
      | consLeaf _ _ _ _ l' _ hr => rw [ih hr]

/-! ### The external tokenizer and class parser

The rule consumes `astUtil.extractClassnamesFromValue` and
`groupUtil.parseClassname` from utility modules that are not part of the three
source files.  The spec treats them as a black box with a narrow interface:
`splitIntoTokens(text) -> sequence of (tokenText, relativeOffset)` and
`parseStructure(tokenText, context) -> ParsedToken` exposing a `name` field. -/

/-- Whitespace characters separating class tokens. -/
def isSpaceChar (c : Char) : Bool :=
  c = ' ' || c = '\t' || c = '\n' || c = '\x0c' || c = '\r'

/-- Accumulating scanner for the tokenizer: `i` is the current position,
`cur` the pending token read so far (reversed), `curStart` its start. -/
def tokenizeGo : List Char → Nat → List Char → Nat → List (List Char × Nat)
  | [], _, cur, curStart =>
      if cur = [] then [] else [(cur.reverse, curStart)]
  | c :: cs, i, cur, curStart =>
      if isSpaceChar c then
        (if cur = [] then [] else [(cur.reverse, curStart)]) ++ tokenizeGo cs (i + 1) [] 0
      else if cur = [] then
        tokenizeGo cs (i + 1) [c] i
      else
        tokenizeGo cs (i + 1) (c :: cur) curStart

/-- Modelled from the spec: `astUtil.extractClassnamesFromValue` is not among
the source files; per the spec the external tokenizer splits a class string
into whitespace-delimited tokens, each with its token-relative start offset
(`classNames` together with `classNamesIndex`). -/
def extractClassnames (s : List Char) : List (List Char × Nat) :=
  tokenizeGo s 0 [] 0

/-- Modelled from the spec: `groupUtil.parseClassname` is not among the source
files; per the spec the external parser exposes a `name` field — the token
text after any variant stripping — and for a token with no variant the name
is the token text itself. -/
def parseClassname (cls : List Char) : List Char := cls

/-! ### The bracket matcher and the replacement (`parseForArbitraryValues`,
lines 161-196 of the rule) -/

/-- Index of the first occurrence of `c` in a character list. -/
def firstIdx (c : Char) : List Char → Option Nat
  | [] => none
  | d :: ds => if d = c then some 0 else (firstIdx c ds).map (· + 1)

/-- Index of the last occurrence of `c` in a character list. -/
def lastIdx (c : Char) (s : List Char) : Option Nat :=
  (firstIdx c s.reverse).map (fun k => s.length - 1 - k)

/-- The regex test `name.match(/\[(.*)\]/i)`: the leftmost-greedy match spans from the first
occurrence of an opening bracket to the last occurrence of a closing bracket
after it (`.*` is greedy and matches closing brackets as well).  Returns the
positions `(i, j)` of the two brackets. -/
def bracketMatch (s : List Char) : Option (Nat × Nat) :=
  match firstIdx '[' s, lastIdx ']' s with
  | some i, some j => if i < j then some (i, j) else none
  | _, _ => none

/-- First index at which `pat` occurs as a contiguous sublist of the argument
(JS `String.prototype.indexOf`, the search performed by `String.replace` with
a string pattern). -/
def findSub (pat : List Char) : List Char → Option Nat
  | [] => if pat.isEmpty then some 0 else none
  | d :: rest =>
      if ((d :: rest).take pat.length) == pat then some 0
      else (findSub pat rest).map (· + 1)

/-- The dollar character, which triggers JS replacement patterns. -/
def dollarChar : Char := '$'

/-- The backquote character (code point 96). -/
def backquoteChar : Char := Char.ofNat 96

/-- The single-quote character (code point 39). -/
def singleQuoteChar : Char := Char.ofNat 39

/-- GetSubstitution of ECMA-262 as invoked by `String.prototype.replace`
with a string pattern (no capture groups, no named captures): scanning the
replacement string, a doubled dollar yields one dollar, dollar-ampersand
yields the matched text, a dollar followed by a backquote yields the part of
`str` before the match, a dollar followed by a single quote yields the part
of `str` after the match, and any other dollar (including the digit and
angle-bracket forms, which have no captures to refer to here) stands for
itself.  `position` is the start of the match inside `str`. -/
def getSubstitution (matched str : List Char) (position : Nat) : List Char → List Char
  | [] => []
  | [c] => [c]
  | c :: d :: rest2 =>
      if c = dollarChar then
        if d = dollarChar then dollarChar :: getSubstitution matched str position rest2
        else if d = '&' then matched ++ getSubstitution matched str position rest2
        else if d = backquoteChar then
          str.take position ++ getSubstitution matched str position rest2
        else if d = singleQuoteChar then
          str.drop (position + matched.length) ++ getSubstitution matched str position rest2
        else dollarChar :: getSubstitution matched str position (d :: rest2)
      else c :: getSubstitution matched str position (d :: rest2)

/-- JS `s.replace(pat, repl)` with a string pattern: replace the first
occurrence of `pat`, if any, by `repl` interpreted through GetSubstitution
relative to that occurrence. -/
def jsReplace (s pat repl : List Char) : List Char :=
  match findSub pat s with
  | none => s
  | some k => s.take k ++ getSubstitution pat s k repl ++ s.drop (k + pat.length)

/-- The source expression `definedToken[0].endsWith("-DEFAULT") ?
definedToken[0].slice(0, -8) : definedToken[0]` — the replacement text computed from the path list, which
uses only its first element. -/
def replacementFor (paths : List (List Char)) : List Char :=
  let first := paths.headD []
  if "-DEFAULT".data.isSuffixOf first then first.take (first.length - 8) else first

/-- A leaf handed to the token-processing part of `parseForArbitraryValues`:
`originalClassNamesValue`, `start` and `end` as set by the leaf cases of the
function (all three stay `null` when the `switch` falls through on an
unsupported node type). -/
structure Leaf where
  value : Option (List Char)
  startOff : Option Nat
  endOff : Option Nat
deriving DecidableEq

/-- One entry of the `forbidden` array (a violation record): the captured
arbitrary value, the `map` entry for it, and the fix information. -/
structure Violation where
  arbitraryValue : List Char
  definedToken : List (List Char)
  fixStart : Nat
  fixEnd : Nat
  fixed : List Char
deriving DecidableEq

/-- Processing of a single class token (`classNames.forEach` body, lines
164-184): parse the token, match `/\[(.*)\]/i` against the parsed name, look
the captured payload up in the theme index, and on a hit produce the
violation record with its fix range and replacement text. -/
def tokenViolation (parse : List Char → List Char) (index : ThemeIndex) (s : Nat)
    (tok : List Char × Nat) : Option Violation :=
  let name := parse tok.1
  match bracketMatch name with
  | none => none
  | some (i, j) =>
      let matched := (name.drop i).take (j + 1 - i)
      let key := (name.drop (i + 1)).take (j - (i + 1))
      match lookupIndex index (.str key) with
      | none => none
      | some paths =>
          some ⟨key, paths, s + tok.2, s + tok.2 + name.length,
                jsReplace name matched (replacementFor paths)⟩

/-- Token extraction and matching for one leaf (lines 161-184): when the
value of the leaf is not a string (the `switch` fell through with
`originalClassNamesValue` still `null`) the tokenizer yields no tokens and no
violation is produced. -/
def leafViolations (parse : List Char → List Char) (index : ThemeIndex) (leaf : Leaf) :
    List Violation :=
  match leaf.value, leaf.startOff with
  | some v, some s => (extractClassnames v).filterMap (tokenViolation parse index s)
  | _, _ => []

/-! ### The structural walker (`parseForArbitraryValues`, lines 93-159) -/

mutual

/-- The expression shapes the `switch` of `parseForArbitraryValues`
distinguishes.  `lit` carries the literal value field (`none` for a non-string
literal) and its raw source range; `templateElem` carries `value.raw` and its
range.  `other` stands for any node type without a `case` (the `switch` then
falls through leaving `originalClassNamesValue`, `start` and `end` at
`null`). -/
inductive JsExpr where
  | ident (name : List Char)
  | lit (value : Option (List Char)) (rStart rEnd : Nat)
  | template (exprs : JsExprList) (quasis : JsExprList)
  | templateElem (raw : List Char) (rStart rEnd : Nat)
  | cond (test conseq alt : JsExpr)
  | logical (lhs rhs : JsExpr)
  | arrE (elems : JsExprList)
  | objE (props : JsPropList)
  | propNode (key pval : JsExpr)
  | other (tag : List Char)
deriving DecidableEq

/-- The lists `arg.expressions` / `arg.quasis` / `arg.elements`. -/
inductive JsExprList where
  | lnil
  | lcons (head : JsExpr) (tail : JsExprList)
deriving DecidableEq

/-- The list `arg.properties`: `Property` nodes with a key and a value. -/
inductive JsPropList where
  | pnil
  | pcons (pkey pval : JsExpr) (tail : JsPropList)
deriving DecidableEq

end

/-- The facts `parseForArbitraryValues` reads off its root `node` argument:
the extracted value and range (used only when called with `arg === null`),
whether the node is a `TextAttribute` (no quote characters to strip), whether
`node.callee.name === "classnames"`, and whether `node.key.type ===
"VDirectiveKey"`. -/
structure RootInfo where
  rootValue : Option (List Char)
  rootRangeStart : Nat
  rootRangeEnd : Nat
  rootIsTextAttribute : Bool
  calleeIsClassnames : Bool
  keyIsVDirectiveKey : Bool
deriving DecidableEq

mutual

/-- The recursive `switch` of `parseForArbitraryValues` on a child node,
returning the leaves it hands to token processing, in call order:
identifiers produce nothing; template literals recurse into all expression
slots and then all static segments; conditionals recurse into both branches;
logical expressions recurse only into the right operand; arrays recurse into
every element; objects recurse into the key or the value of each property
depending on the callee / directive-key flags of the root; a `Property` recurses
into its key; a string literal is a leaf with one delimiter character
stripped on each side; a non-empty template element is a leaf with its raw
range; any other shape falls through the `switch` with all three locals still
`null`. -/
def walkArg (root : RootInfo) : JsExpr → List Leaf
  | .ident _ => []
  | .template exprs quasis => walkList root exprs ++ walkList root quasis
  | .cond _ c a => walkArg root c ++ walkArg root a
  | .logical _ r => walkArg root r
  | .arrE els => walkList root els
  | .objE props => walkProps root props
  | .propNode k _ => walkArg root k
  | .lit v rs re => [⟨v, some (rs + 1), some (re - 1)⟩]
  | .templateElem raw rs re => if raw = [] then [] else [⟨some raw, some rs, some re⟩]
  | .other _ => [⟨none, none, none⟩]

def walkList (root : RootInfo) : JsExprList → List Leaf
  | .lnil => []
  | .lcons e rest => walkArg root e ++ walkList root rest

def walkProps (root : RootInfo) : JsPropList → List Leaf
  | .pnil => []
  | .pcons k v rest =>
      (if root.calleeIsClassnames || root.keyIsVDirectiveKey then walkArg root k
       else walkArg root v)
        ++ walkProps root rest

end

/-- Entry `parseForArbitraryValues(node, arg)`: with `arg === null` the value and
range come from the node itself; the content range keeps the raw range for a
`TextAttribute` and strips one delimiter character on each side otherwise. -/
def walk (root : RootInfo) : Option JsExpr → List Leaf
  | none =>
      if root.rootIsTextAttribute then
        [⟨root.rootValue, some root.rootRangeStart, some root.rootRangeEnd⟩]
      else
        [⟨root.rootValue, some (root.rootRangeStart + 1), some (root.rootRangeEnd - 1)⟩]
  | some arg => walkArg root arg

/-- All violation records one `parseForArbitraryValues(node, arg)` call
reports, in report order. -/
def ruleViolations (parse : List Char → List Char) (index : ThemeIndex) (root : RootInfo)
    (arg : Option JsExpr) : List Violation :=
  (walk root arg).flatMap (leafViolations parse index)

/-- Fix application `fixer.replaceTextRange([start, end], fixed)` for every reported
violation: the host applies the non-overlapping single-range replacements;
they are applied right-to-left so that earlier offsets stay valid. -/
def applyFixes (src : List Char) (vs : List Violation) : List Char :=
  vs.foldr (fun v acc => acc.take v.fixStart ++ v.fixed ++ acc.drop v.fixEnd) src

/-! ### Concrete inputs from the test file of the repository -/

/-- The `theme.colors` object of the test options:
`gray.DEFAULT = "#332233", gray.layout = "#f0f2f5", gray.flow = "#f0f2f5", flow = "#123456"`. -/
def testThemeColors : JSEntries :=
  .econs "gray".data
    (.obj (.econs "DEFAULT".data (.str "#332233".data)
            (.econs "layout".data (.str "#f0f2f5".data)
              (.econs "flow".data (.str "#f0f2f5".data) .enil))))
    (.econs "flow".data (.str "#123456".data) .enil)

/-- The theme index the rule builds from `testThemeColors`. -/
def testIndex : ThemeIndex := buildThemeIndex testThemeColors

example : testIndex =
    [(.str "#332233".data, ["gray-DEFAULT".data]),
     (.str "#f0f2f5".data, ["gray-layout".data, "gray-flow".data]),
     (.str "#123456".data, ["flow".data])] := by decide

/-- The invalid test case of the test file:
`<div class="flex bg-[#f0f2f5] text-[#123456] text-[#332233] bg-[#F0F2F5]">Arbitrary width!</div>`. -/
def c1Source : List Char :=
  ("<div class=\"flex bg-[#f0f2f5] text-[#123456] text-[#332233] bg-[#F0F2F5]\">"
    ++ "Arbitrary width!</div>").data

/-- Root information for the `class` attribute of `c1Source`: the attribute
value node spans source positions 11-73 (the quoted string), the node is a
JSX attribute (not a `TextAttribute`), so one quote character is stripped on
each side. -/
def c1Root : RootInfo :=
  ⟨some "flex bg-[#f0f2f5] text-[#123456] text-[#332233] bg-[#F0F2F5]".data,
   11, 73, false, false, false⟩

example :
    (ruleViolations parseClassname testIndex c1Root none).map Violation.arbitraryValue =
      ["#f0f2f5".data, "#123456".data, "#332233".data] := by decide

example :
    applyFixes c1Source (ruleViolations parseClassname testIndex c1Root none) =
      ("<div class=\"flex bg-gray-layout text-flow text-gray bg-[#F0F2F5]\">"
        ++ "Arbitrary width!</div>").data := by decide

/-! ### `splitWithIndex` (src/lib/util/splitWithIndex.js)

`str.matchAll(regex)` with a global regex is modelled by the list of matches
it returns: each match has a start `index`, the length `len` of the matched
text `match[0]`, and the captured `groups` `match[1..]`.  For a global regex,
`matchAll` yields matches with strictly increasing indices that do not
overlap (`lastIndex` is advanced past every match, and one position further
for an empty match), each lying inside the string. -/

/-- One element of a `matchAll` result. -/
structure RegexMatch where
  index : Nat
  len : Nat
  groups : List (List Char)
deriving DecidableEq

/-- One `{value, index}` element of the result of `splitWithIndex`. -/
structure SplitElem where
  value : List Char
  index : Nat
deriving DecidableEq

/-- JS `str.substring(a, b)` for `a ≤ b`. -/
def jsSubstring (s : List Char) (a b : Nat) : List Char := (s.take b).drop a

/-- The `for (match of matches)` loop of `splitWithIndex`, threading
`lastIndex`: push the gap `str.substring(lastIndex, match.index)` when the
match does not start at `lastIndex`, push every capture-group value at
`match.index`, and advance `lastIndex` past the match.  Returns the pushed
elements together with the final `lastIndex`. -/
def splitLoop (str : List Char) : List RegexMatch → Nat → List SplitElem × Nat
  | [], last => ([], last)
  | m :: rest, last =>
      let gap := if m.index ≠ last then [SplitElem.mk (jsSubstring str last m.index) last] else []
      let caps := m.groups.map (fun g => SplitElem.mk g m.index)
      let r := splitLoop str rest (m.index + m.len)
      (gap ++ caps ++ r.1, r.2)

/-- Function `splitWithIndex(str, separator)`, as a function of the `matchAll` result:
no match returns `[{value: str, index: 0}]`; otherwise an empty head element
is pushed when the first match starts at index 0, then the loop runs from
`lastIndex = 0`, and finally `str.substring(lastIndex)` is pushed. -/
def splitWithIndex (str : List Char) (ms : List RegexMatch) : List SplitElem :=
  match ms with
  | [] => [SplitElem.mk str 0]
  | m :: _ =>
      let head := if m.index = 0 then [SplitElem.mk [] 0] else []
      let r := splitLoop str ms 0
      head ++ r.1 ++ [SplitElem.mk (str.drop r.2) r.2]

/-- Adjacent-match ordering of a `matchAll` result for a global regex: the
next match starts strictly after the current one and after its matched
text. -/
def matchesOrdered : List RegexMatch → Bool
  | [] => true
  | [_] => true
  | a :: b :: rest =>
      decide (a.index < b.index) && decide (a.index + a.len ≤ b.index)
        && matchesOrdered (b :: rest)

example :
    splitWithIndex "a,b,,c".data
      [⟨1, 1, []⟩, ⟨3, 1, []⟩, ⟨4, 1, []⟩] =
      [⟨"a".data, 0⟩, ⟨"b".data, 2⟩, ⟨"c".data, 5⟩] := by decide

example :
    splitWithIndex "ab".data [⟨0, 0, []⟩, ⟨1, 0, []⟩, ⟨2, 0, []⟩] =
      [⟨[], 0⟩, ⟨"a".data, 0⟩, ⟨"b".data, 1⟩, ⟨[], 2⟩] := by decide

/-! ### Lemmas about the theme index -/

/-- The dash-joined paths of the leaves carrying value `v`, in discovery
order. -/
def collectPaths (leaves : List (JSValue × List (List Char))) (v : JSValue) : List (List Char) :=
  leaves.filterMap (fun lv => if lv.1 = v then some (joinDash lv.2) else none)

theorem lookupIndex_insertPath_self (m : ThemeIndex) (v : JSValue) (p : List Char) :
    lookupIndex (insertPath m v p) v = some ((lookupIndex m v).getD [] ++ [p]) := by
  induction m with
  | nil => simp [insertPath, lookupIndex]
  | cons kv rest ih =>
      obtain ⟨k, ps⟩ := kv
      by_cases h : k = v
      · subst h
        simp [insertPath, lookupIndex]
      · simp [insertPath, lookupIndex, h, ih]

theorem lookupIndex_insertPath_ne (m : ThemeIndex) (v w : JSValue) (p : List Char)
    (hvw : w ≠ v) :
    lookupIndex (insertPath m v p) w = lookupIndex m w := by
  have hvw' : v ≠ w := fun h => hvw h.symm
  induction m with
  | nil => simp [insertPath, lookupIndex, hvw']
  | cons kv rest ih =>
      obtain ⟨k, ps⟩ := kv
      by_cases h : k = v
      · subst h
        simp [insertPath, lookupIndex, hvw']
      · simp only [insertPath, if_neg h]
        by_cases h2 : k = w <;> simp [lookupIndex, h2, ih]

theorem lookupIndex_foldl_insert (leaves : List (JSValue × List (List Char))) :
    ∀ (m : ThemeIndex) (v : JSValue),
      lookupIndex (leaves.foldl (fun acc lv => insertPath acc lv.1 (joinDash lv.2)) m) v =
        match lookupIndex m v with
        | some ps => some (ps ++ collectPaths leaves v)
        | none => if collectPaths leaves v = [] then none else some (collectPaths leaves v) := by
  induction leaves with
  | nil =>
      intro m v
      cases hm : lookupIndex m v <;> simp [collectPaths, hm]
  | cons lv rest ih =>
      intro m v
      obtain ⟨w, path⟩ := lv
      by_cases hv : w = v
      · subst hv
        have hcol : collectPaths ((w, path) :: rest) w = joinDash path :: collectPaths rest w := by
          simp [collectPaths]
        rw [List.foldl_cons, ih (insertPath m w (joinDash path)) w,
          lookupIndex_insertPath_self, hcol]
        cases hm : lookupIndex m w <;>
          cases hr : collectPaths rest w <;> simp [hm, hr]
      · have hcol : collectPaths ((w, path) :: rest) v = collectPaths rest v := by
          simp [collectPaths, hv]
        rw [List.foldl_cons, ih (insertPath m w (joinDash path)) v,
          lookupIndex_insertPath_ne m w v _ (fun h => hv h.symm), hcol]

/-- The index entry of `buildThemeIndex` for a value is exactly the
discovery-order list of dash-joined paths of the leaves carrying that
value. -/
theorem lookupIndex_buildThemeIndex (colors : JSEntries) (v : JSValue)
    (ps : List (List Char)) (h : lookupIndex (buildThemeIndex colors) v = some ps) :
    ps = collectPaths (traverseEntries colors []) v := by
  rw [buildThemeIndex, indexFromLeaves, lookupIndex_foldl_insert] at h
  simp only [lookupIndex] at h
  by_cases hc : collectPaths (traverseEntries colors []) v = []
  · simp [hc] at h
  · simp [hc] at h
    exact h.symm

/-! ### Lemmas about the bracket match and the replacement -/

theorem firstIdx_drop {c : Char} {s : List Char} {i : Nat} (h : firstIdx c s = some i) :
    s.drop i = c :: s.drop (i + 1) := by
  induction s generalizing i with
  | nil => simp [firstIdx] at h
  | cons d ds ih =>
      by_cases hd : d = c
      · simp [firstIdx, hd] at h
        subst hd h
        simp
      · simp only [firstIdx, if_neg hd, Option.map_eq_some'] at h
        obtain ⟨i', hi', rfl⟩ := h
        simpa using ih hi'

theorem firstIdx_lt {c : Char} {s : List Char} {i : Nat} (h : firstIdx c s = some i) :
    i < s.length := by
  by_contra hge
  have hnil : s.drop i = [] := List.drop_eq_nil_of_le (Nat.le_of_not_lt hge)
  rw [firstIdx_drop h] at hnil
  cases hnil

theorem firstIdx_min {c : Char} {s : List Char} {i : Nat} (h : firstIdx c s = some i) :
    ∀ k, k < i → (s.drop k).head? ≠ some c := by
  induction s generalizing i with
  | nil => simp [firstIdx] at h
  | cons d ds ih =>
      by_cases hd : d = c
      · simp [firstIdx, hd] at h
        intro k hk
        omega
      · simp only [firstIdx, if_neg hd, Option.map_eq_some'] at h
        obtain ⟨i', hi', rfl⟩ := h
        intro k hk
        match k with
        | 0 => simpa using hd
        | k' + 1 =>
            have := ih hi' k' (by omega)
            simpa using this

theorem lastIdx_lt {c : Char} {s : List Char} {j : Nat} (h : lastIdx c s = some j) :
    j < s.length := by
  simp only [lastIdx, Option.map_eq_some'] at h
  obtain ⟨k, hk, rfl⟩ := h
  have hk' : k < s.length := by simpa using firstIdx_lt hk
  omega

theorem findSub_of_first {pat s : List Char} {i : Nat} {c : Char}
    (hpat : pat.head? = some c)
    (hocc : (s.drop i).take pat.length = pat)
    (hmin : ∀ k, k < i → (s.drop k).head? ≠ some c) :
    findSub pat s = some i := by
  induction s generalizing i with
  | nil =>
      exfalso
      simp only [List.drop_nil, List.take_nil] at hocc
      rw [← hocc] at hpat
      simp at hpat
  | cons d rest ih =>
      match i with
      | 0 =>
          simp only [List.drop_zero] at hocc
          simp [findSub, hocc]
      | i' + 1 =>
          have hne : ¬ ((d :: rest).take pat.length == pat) = true := by
            intro hbeq
            have heq : (d :: rest).take pat.length = pat := by
              exact eq_of_beq hbeq
            have hlen : 1 ≤ pat.length := by
              cases pat with
              | nil => simp at hpat
              | cons p ps => simp
            have hhead : pat.head? = some d := by
              rw [← heq]
              cases hp : pat.length with
              | zero => omega
              | succ n => simp
            rw [hpat] at hhead
            have hdc : c = d := by simpa using hhead
            exact hmin 0 (by omega) (by simp [hdc])
          simp only [findSub, if_neg hne, Option.map_eq_some']
          refine ⟨i', ih ?_ ?_, rfl⟩
          · simpa using hocc
          · intro k hk
            have := hmin (k + 1) (by omega)
            simpa using this


theorem bracketMatch_spec {s : List Char} {i j : Nat} (h : bracketMatch s = some (i, j)) :
    firstIdx '[' s = some i ∧ lastIdx ']' s = some j ∧ i < j := by
  cases hf0 : firstIdx '[' s with
  | none => simp [bracketMatch, hf0] at h
  | some i0 =>
      cases hl0 : lastIdx ']' s with
      | none => simp [bracketMatch, hf0, hl0] at h
      | some j0 =>
          by_cases hij : i0 < j0
          · simp only [bracketMatch, hf0, hl0, if_pos hij, Option.some_inj,
              Prod.mk.injEq] at h
            obtain ⟨rfl, rfl⟩ := h
            exact ⟨rfl, rfl, hij⟩
          · simp [bracketMatch, hf0, hl0, hij] at h

theorem getSubstitution_no_dollar (matched str : List Char) (position : Nat) :
    ∀ repl : List Char, dollarChar ∉ repl →
      getSubstitution matched str position repl = repl
  | [], _ => rfl
  | [c], _ => rfl
  | c :: d :: rest2, h => by
      have hc : ¬ c = dollarChar := fun hcd => h (hcd ▸ List.mem_cons_self c (d :: rest2))
      have hrest : dollarChar ∉ d :: rest2 := fun hm => h (List.mem_cons_of_mem c hm)
      simp [getSubstitution, hc,
        getSubstitution_no_dollar matched str position (d :: rest2) hrest]

/-- On a bracket match at positions `(i, j)`, `name.replace(matched, …)`
substitutes exactly over `name[i..j]`: the first occurrence of the matched
text is the match itself, and the replacement goes through GetSubstitution
at that position. -/
theorem jsReplace_bracket (s repl : List Char) (i j : Nat)
    (h : bracketMatch s = some (i, j)) :
    jsReplace s ((s.drop i).take (j + 1 - i)) repl =
      s.take i ++ getSubstitution ((s.drop i).take (j + 1 - i)) s i repl
        ++ s.drop (j + 1) := by
  obtain ⟨hf, hl, hij⟩ := bracketMatch_spec h
  have hi : i < s.length := firstIdx_lt hf
  have hj : j < s.length := lastIdx_lt hl
  have hdrop := firstIdx_drop hf
  have hdlen : (s.drop i).length = s.length - i := List.length_drop ..
  have hpatlen : ((s.drop i).take (j + 1 - i)).length = j + 1 - i := by
    rw [List.length_take, hdlen]
    omega
  have hhead : ((s.drop i).take (j + 1 - i)).head? = some '[' := by
    rw [hdrop]
    have hsplit : j + 1 - i = (j - i) + 1 := by omega
    rw [hsplit]
    simp
  have hfind : findSub ((s.drop i).take (j + 1 - i)) s = some i :=
    findSub_of_first hhead (by rw [hpatlen]) (firstIdx_min hf)
  simp only [jsReplace, hfind, hpatlen]
  have heq : i + (j + 1 - i) = j + 1 := by omega
  rw [heq]

/-! ### Lemmas about `splitWithIndex` -/

theorem matchesOrdered_cons {a : RegexMatch} {l : List RegexMatch}
    (h : matchesOrdered (a :: l) = true) :
    matchesOrdered l = true ∧
      ∀ b, l.head? = some b → a.index < b.index ∧ a.index + a.len ≤ b.index := by
  cases l with
  | nil => simp [matchesOrdered]
  | cons b l' =>
      simp only [matchesOrdered, Bool.and_eq_true, decide_eq_true_eq] at h
      refine ⟨h.2, ?_⟩
      intro b' hb'
      simp only [List.head?_cons, Option.some_inj] at hb'
      subst hb'
      exact ⟨h.1.1, h.1.2⟩

theorem jsSubstring_length {s : List Char} {a b : Nat} (hb : b ≤ s.length) :
    (jsSubstring s a b).length = b - a := by
  rw [jsSubstring, List.length_drop, List.length_take, Nat.min_eq_left hb]

theorem splitLoop_spec (str : List Char) :
    ∀ (ms : List RegexMatch) (last : Nat),
      matchesOrdered ms = true →
      (∀ m ∈ ms, m.index + m.len ≤ str.length) →
      (∀ m ∈ ms, m.groups = []) →
      (∀ m, ms.head? = some m → last ≤ m.index) →
      last ≤ str.length →
      (∀ e ∈ (splitLoop str ms last).1,
          jsSubstring str e.index (e.index + e.value.length) = e.value)
      ∧ (∀ e ∈ (splitLoop str ms last).1,
          last ≤ e.index ∧ e.index < (splitLoop str ms last).2)
      ∧ List.Pairwise (fun a b : SplitElem => a.index < b.index) (splitLoop str ms last).1
      ∧ last ≤ (splitLoop str ms last).2
      ∧ (splitLoop str ms last).2 ≤ str.length := by
  intro ms
  induction ms with
  | nil =>
      intro last _ _ _ _ hlen
      simp [splitLoop, hlen]
  | cons m rest ih =>
      intro last hord hb hg hhead hlen
      obtain ⟨hordr, hadj⟩ := matchesOrdered_cons hord
      have hlast : last ≤ m.index := hhead m rfl
      have hm : m.index + m.len ≤ str.length := hb m (List.mem_cons_self m rest)
      have hgm : m.groups = [] := hg m (List.mem_cons_self m rest)
      have hbr : ∀ x ∈ rest, x.index + x.len ≤ str.length :=
        fun x hx => hb x (List.mem_cons_of_mem _ hx)
      have hgr : ∀ x ∈ rest, x.groups = [] :=
        fun x hx => hg x (List.mem_cons_of_mem _ hx)
      have hheadr : ∀ x, rest.head? = some x → m.index + m.len ≤ x.index :=
        fun x hx => (hadj x hx).2
      have hlenr : m.index + m.len ≤ str.length := hm
      obtain ⟨ihsub, ihbnd, ihpw, ihle, ihlen⟩ :=
        ih (m.index + m.len) hordr hbr hgr hheadr hlenr
      by_cases hgap : m.index = last
      · have hunfold :
            splitLoop str (m :: rest) last = splitLoop str rest (m.index + m.len) := by
          simp [splitLoop, hgap, hgm]
        rw [hunfold]
        refine ⟨ihsub, ?_, ihpw, ?_, ihlen⟩
        · intro e he
          have := ihbnd e he
          omega
        · omega
      · have hlt : last < m.index := by omega
        have hunfold :
            splitLoop str (m :: rest) last =
              (SplitElem.mk (jsSubstring str last m.index) last ::
                  (splitLoop str rest (m.index + m.len)).1,
               (splitLoop str rest (m.index + m.len)).2) := by
          simp [splitLoop, hgap, hgm]
        rw [hunfold]
        have hgapsub :
            jsSubstring str last (last + (jsSubstring str last m.index).length) =
              jsSubstring str last m.index := by
          have hml : m.index ≤ str.length := by omega
          rw [jsSubstring_length hml]
          have heq : last + (m.index - last) = m.index := by omega
          rw [heq]
        constructor
        · intro e he
          rcases List.mem_cons.mp he with rfl | he'
          · exact hgapsub
          · exact ihsub e he'
        constructor
        · intro e he
          rcases List.mem_cons.mp he with rfl | he'
          · refine ⟨Nat.le_refl _, ?_⟩
            simp only []
            omega
          · have := ihbnd e he'
            constructor <;> omega
        constructor
        · refine List.Pairwise.cons ?_ ihpw
          intro e he
          have := ihbnd e he
          simp only []
          omega
        constructor
        · simp only []
          omega
        · exact ihlen

theorem jsSubstring_drop {str : List Char} {k : Nat} (hk : k ≤ str.length) :
    jsSubstring str k (k + (str.drop k).length) = str.drop k := by
  rw [List.length_drop]
  have heq : k + (str.length - k) = str.length := by omega
  rw [heq, jsSubstring, List.take_length]

/-- C10 (amended): every returned element `{value, index}` of `splitWithIndex`
satisfies `str.substring(index, index + value.length) = value`; when the
separator matches nowhere the result is exactly `[{value: str, index: 0}]`;
and the indices are strictly increasing provided every separator match is
non-empty (an empty-matching separator can repeat an index, see the
counterexample). -/
theorem claim_C10 (str : List Char) (ms : List RegexMatch)
    (hord : matchesOrdered ms = true)
    (hb : ∀ m ∈ ms, m.index + m.len ≤ str.length)
    (hg : ∀ m ∈ ms, m.groups = []) :
    (∀ e ∈ splitWithIndex str ms,
        jsSubstring str e.index (e.index + e.value.length) = e.value)
    ∧ ((∀ m ∈ ms, 1 ≤ m.len) →
        List.Pairwise (fun a b : SplitElem => a.index < b.index) (splitWithIndex str ms))
    ∧ (ms = [] → splitWithIndex str ms = [SplitElem.mk str 0]) := by
  cases ms with
  | nil =>
      refine ⟨?_, ?_, fun _ => rfl⟩
      · intro e he
        simp only [splitWithIndex, List.mem_singleton] at he
        subst he
        simp [jsSubstring]
      · intro _
        simp [splitWithIndex]
  | cons m rest =>
      obtain ⟨hsub, hbnd, hpw, hle0, hfin⟩ :=
        splitLoop_spec str (m :: rest) 0 hord hb hg (fun _ _ => Nat.zero_le _) (Nat.zero_le _)
      have hgm : m.groups = [] := hg m (List.mem_cons_self m rest)
      have hmlen : m.index + m.len ≤ str.length := hb m (List.mem_cons_self m rest)
      obtain ⟨hordr, hadj⟩ := matchesOrdered_cons hord
      have hbr : ∀ x ∈ rest, x.index + x.len ≤ str.length :=
        fun x hx => hb x (List.mem_cons_of_mem _ hx)
      have hgr : ∀ x ∈ rest, x.groups = [] :=
        fun x hx => hg x (List.mem_cons_of_mem _ hx)
      have hheadr : ∀ x, rest.head? = some x → m.index + m.len ≤ x.index :=
        fun x hx => (hadj x hx).2
      have hmid : List.Pairwise (fun a b : SplitElem => a.index < b.index)
          ((splitLoop str (m :: rest) 0).1 ++
            [SplitElem.mk (str.drop (splitLoop str (m :: rest) 0).2)
              (splitLoop str (m :: rest) 0).2]) := by
        rw [List.pairwise_append]
        refine ⟨hpw, List.pairwise_singleton _ _, ?_⟩
        intro a ha b hbmem
        simp only [List.mem_singleton] at hbmem
        subst hbmem
        exact (hbnd a ha).2
      refine ⟨?_, ?_, ?_⟩
      · intro e he
        by_cases hmz : m.index = 0
        · have hgoal : splitWithIndex str (m :: rest) =
              SplitElem.mk [] 0 :: ((splitLoop str (m :: rest) 0).1 ++
                [SplitElem.mk (str.drop (splitLoop str (m :: rest) 0).2)
                  (splitLoop str (m :: rest) 0).2]) := by
            simp [splitWithIndex, hmz]
          rw [hgoal] at he
          rcases List.mem_cons.mp he with rfl | he2
          · simp [jsSubstring]
          · rcases List.mem_append.mp he2 with he3 | hfi
            · exact hsub e he3
            · simp only [List.mem_singleton] at hfi
              subst hfi
              exact jsSubstring_drop hfin
        · have hgoal : splitWithIndex str (m :: rest) =
              (splitLoop str (m :: rest) 0).1 ++
                [SplitElem.mk (str.drop (splitLoop str (m :: rest) 0).2)
                  (splitLoop str (m :: rest) 0).2] := by
            simp [splitWithIndex, hmz]
          rw [hgoal] at he
          rcases List.mem_append.mp he with he3 | hfi
          · exact hsub e he3
          · simp only [List.mem_singleton] at hfi
            subst hfi
            exact jsSubstring_drop hfin
      · intro hne
        by_cases hmz : m.index = 0
        · have hstep : splitLoop str (m :: rest) 0 = splitLoop str rest (m.index + m.len) := by
            simp [splitLoop, hmz, hgm]
          obtain ⟨-, hbnd', -, hle', -⟩ :=
            splitLoop_spec str rest (m.index + m.len) hordr hbr hgr hheadr hmlen
          have hm1 : 1 ≤ m.len := hne m (List.mem_cons_self m rest)
          have hgoal : splitWithIndex str (m :: rest) =
              SplitElem.mk [] 0 :: ((splitLoop str (m :: rest) 0).1 ++
                [SplitElem.mk (str.drop (splitLoop str (m :: rest) 0).2)
                  (splitLoop str (m :: rest) 0).2]) := by
            simp [splitWithIndex, hmz]
          rw [hgoal]
          refine List.Pairwise.cons ?_ hmid
          intro e he
          rcases List.mem_append.mp he with he' | hfi
          · have hbe := hbnd' e (by rw [hstep] at he'; exact he')
            show 0 < e.index
            omega
          · simp only [List.mem_singleton] at hfi
            subst hfi
            show 0 < (splitLoop str (m :: rest) 0).2
            rw [hstep]
            omega
        · have hgoal : splitWithIndex str (m :: rest) =
              (splitLoop str (m :: rest) 0).1 ++
                [SplitElem.mk (str.drop (splitLoop str (m :: rest) 0).2)
                  (splitLoop str (m :: rest) 0).2] := by
            simp [splitWithIndex, hmz]
          rw [hgoal]
          exact hmid
      · intro h
        exact (List.cons_ne_nil m rest h).elim

/-! ### The claims -/

/-- C4: building the theme index is a depth-first traversal that recurses
only into plain non-null, non-array mappings and treats every other value as
a leaf; a value occurring at several paths gets every dash-joined path in
discovery order in its index entry; the replacement text depends only on the
first path of the entry. -/
theorem claim_C4 :
    (∀ (colors : JSEntries) (v : JSValue) (ps : List (List Char)),
        lookupIndex (buildThemeIndex colors) v = some ps →
        ps = collectPaths (traverseEntries colors []) v)
    ∧ (∀ (k : List Char) (v : JSValue) (rest : JSEntries) (path : List (List Char)),
        (∀ e, v ≠ JSValue.obj e) →
        traverseEntries (.econs k v rest) path =
          (v, path ++ [k]) :: traverseEntries rest path)
    ∧ (∀ (k : List Char) (e rest : JSEntries) (path : List (List Char)),
        traverseEntries (.econs k (.obj e) rest) path =
          traverseEntries e (path ++ [k]) ++ traverseEntries rest path)
    ∧ (∀ (p : List Char) (rest : List (List Char)),
        replacementFor (p :: rest) = replacementFor [p]) := by
  refine ⟨lookupIndex_buildThemeIndex, ?_, ?_, ?_⟩
  · intro k v rest path hv
    cases v with
    | obj e => exact absurd rfl (hv e)
    | str s => simp [traverseEntries]
    | jnull => simp [traverseEntries]
    | arrRef r => simp [traverseEntries]
  · intro k e rest path
    simp [traverseEntries]
  · intro p rest
    rfl

/-- Witness for C4 at the test theme: the entry for `#f0f2f5` is the
discovery-order path list `[gray-layout, gray-flow]`. -/
theorem claim_C4_witness :
    ["gray-layout".data, "gray-flow".data] =
      collectPaths (traverseEntries testThemeColors []) (.str "#f0f2f5".data) :=
  claim_C4.1 testThemeColors (.str "#f0f2f5".data)
    ["gray-layout".data, "gray-flow".data] (by decide)

/-- C9: index construction is deterministic and free of hidden mutable
state: any two complete runs of the traversal-and-collect process over the
same colors object yield the same mapping (same keys in the same order, and
the same path sequence per key, since the index is an ordered association
list), and the executable index builder is such a run. -/
theorem claim_C9 :
    (∀ (colors : JSEntries) (m₁ m₂ : ThemeIndex),
        BuildsIndex colors m₁ → BuildsIndex colors m₂ → m₁ = m₂)
    ∧ (∀ colors : JSEntries, BuildsIndex colors (buildThemeIndex colors)) := by
  constructor
  · intro colors m₁ m₂ h₁ h₂
    cases h₁ with
    | mk leaves₁ ht₁ =>
        cases h₂ with
        | mk leaves₂ ht₂ => rw [traverseRel_det ht₁ ht₂]
  · intro colors
    show BuildsIndex colors (indexFromLeaves (traverseEntries colors []))
    exact BuildsIndex.mk colors (traverseEntries colors []) (traverseRel_total colors [])

/-- Witness for C9 at the test theme. -/
theorem claim_C9_witness :
    BuildsIndex testThemeColors (buildThemeIndex testThemeColors) ∧
      buildThemeIndex testThemeColors = buildThemeIndex testThemeColors :=
  ⟨claim_C9.2 testThemeColors,
   claim_C9.1 testThemeColors _ _ (claim_C9.2 testThemeColors) (claim_C9.2 testThemeColors)⟩

theorem tokenViolation_empty_index (parse : List Char → List Char) (s : Nat)
    (tok : List Char × Nat) : tokenViolation parse [] s tok = none := by
  cases hbm : bracketMatch (parse tok.1) with
  | none => simp [tokenViolation, hbm]
  | some ij =>
      obtain ⟨i, j⟩ := ij
      simp [tokenViolation, hbm, lookupIndex]

/-- C6 (amended): an empty resolved colors mapping produces an empty
ThemeValueIndex and the matcher never reports a violation; a missing colors
mapping does not produce an empty index — `Object.keys(undefined)` throws a
`TypeError` at index-build time instead. -/
theorem claim_C6 :
    buildIndexFromColors (some .enil) = .ok []
    ∧ (∀ (parse : List Char → List Char) (leaf : Leaf), leafViolations parse [] leaf = [])
    ∧ buildIndexFromColors none = .error jsTypeErrorMsg := by
  refine ⟨rfl, ?_, rfl⟩
  intro parse leaf
  match leaf with
  | ⟨none, so, eo⟩ => rfl
  | ⟨some v, none, eo⟩ => rfl
  | ⟨some v, some s, eo⟩ =>
      show (extractClassnames v).filterMap (tokenViolation parse [] s) = []
      rw [List.filterMap_eq_nil_iff]
      intro tok _
      exact tokenViolation_empty_index parse s tok

/-- C6 counterexample: with the colors mapping missing, the analysis does not
proceed with an empty index — index construction throws. -/
theorem claim_C6_counterexample :
    ¬ buildIndexFromColors none = .ok ([] : ThemeIndex) := by
  simp [buildIndexFromColors]

/-- C5: an expression node whose shape has no supported case is silently
skipped: the `switch` falls through with all three locals `null`, the only
emitted record carries no string value, and zero violations are produced
(and, the tokenizer being total on the null value, no error is raised). -/
theorem claim_C5 :
    (∀ (root : RootInfo) (tag : List Char),
        walkArg root (.other tag) = [Leaf.mk none none none])
    ∧ (∀ (root : RootInfo) (tag : List Char) (l : Leaf),
        l ∈ walkArg root (.other tag) → l.value = none)
    ∧ (∀ (root : RootInfo) (tag : List Char) (parse : List Char → List Char)
        (index : ThemeIndex),
        ruleViolations parse index root (some (.other tag)) = []) := by
  refine ⟨?_, ?_, ?_⟩
  · intro root tag
    simp [walkArg]
  · intro root tag l hl
    simp only [walkArg, List.mem_singleton] at hl
    subst hl
    rfl
  · intro root tag parse index
    simp [ruleViolations, walk, walkArg, leafViolations]

/-- Witness for C5: a concrete unsupported node produces a null record. -/
theorem claim_C5_witness :
    (Leaf.mk none none none).value = none :=
  claim_C5.2.1 ⟨none, 0, 0, false, false, false⟩ "CallExpression".data
    (Leaf.mk none none none) (by simp [walkArg])

/-- C7: a conditional expression recurses into both branches (in source
order) and the condition never contributes leaves; with string-literal
branches `"a-[1px]"` and `"b-[2px]"` both strings become candidate leaves. -/
theorem claim_C7 :
    (∀ (root : RootInfo) (t c a : JsExpr),
        walkArg root (.cond t c a) = walkArg root c ++ walkArg root a)
    ∧ (∀ (root : RootInfo) (t t' c a : JsExpr),
        walkArg root (.cond t c a) = walkArg root (.cond t' c a))
    ∧ walkArg ⟨none, 0, 0, false, false, false⟩
        (.cond (.ident "flag".data) (.lit (some "a-[1px]".data) 10 19)
          (.lit (some "b-[2px]".data) 22 31)) =
      [Leaf.mk (some "a-[1px]".data) (some 11) (some 18),
       Leaf.mk (some "b-[2px]".data) (some 23) (some 30)] := by
  refine ⟨?_, ?_, by decide⟩
  · intro root t c a
    simp [walkArg]
  · intro root t t' c a
    simp [walkArg]

/-- C8: a logical/short-circuit expression recurses only into its right-hand
operand; the left-hand operand never produces a leaf or a violation, even
when it is a string literal whose payload is in the index. -/
theorem claim_C8 :
    (∀ (root : RootInfo) (l r : JsExpr),
        walkArg root (.logical l r) = walkArg root r)
    ∧ (∀ (root : RootInfo) (l l' r : JsExpr),
        walkArg root (.logical l r) = walkArg root (.logical l' r))
    ∧ ruleViolations parseClassname testIndex ⟨none, 0, 0, false, false, false⟩
        (some (.logical (.lit (some "bg-[#f0f2f5]".data) 5 18) (.ident "x".data))) = [] := by
  refine ⟨?_, ?_, by decide⟩
  · intro root l r
    simp [walkArg]
  · intro root l l' r
    simp [walkArg]

/-- C2 (amended): for every matched token, the replacement text is the
parsed name with the bracket-matched substring replaced by the
GetSubstitution interpretation of the first canonical path for the payload,
the path being first stripped of its last 8 characters exactly when it ends
with the case-sensitive suffix `-DEFAULT`; whenever the stripped path
contains no dollar character the substitution is the path itself (the
literal splice of the original claim); concretely the theme entry
`gray.DEFAULT = "#332233"` rewrites `text-[#332233]` to `text-gray` and
`gray.layout = "#f0f2f5"` rewrites `bg-[#f0f2f5]` to `bg-gray-layout`. -/
theorem claim_C2 :
    (∀ (parse : List Char → List Char) (index : ThemeIndex) (val : List Char)
        (s : Nat) (eo : Option Nat) (v : Violation),
        v ∈ leafViolations parse index (Leaf.mk (some val) (some s) eo) →
        ∃ tok ∈ extractClassnames val, ∃ i j paths,
          bracketMatch (parse tok.1) = some (i, j) ∧
          lookupIndex index
            (.str (((parse tok.1).drop (i + 1)).take (j - (i + 1)))) = some paths ∧
          v.fixed = (parse tok.1).take i ++
            getSubstitution (((parse tok.1).drop i).take (j + 1 - i)) (parse tok.1) i
              (if "-DEFAULT".data.isSuffixOf (paths.headD []) then
                (paths.headD []).take ((paths.headD []).length - 8)
               else paths.headD []) ++ (parse tok.1).drop (j + 1) ∧
          (dollarChar ∉
              (if "-DEFAULT".data.isSuffixOf (paths.headD []) then
                (paths.headD []).take ((paths.headD []).length - 8)
               else paths.headD []) →
            v.fixed = (parse tok.1).take i ++
              (if "-DEFAULT".data.isSuffixOf (paths.headD []) then
                (paths.headD []).take ((paths.headD []).length - 8)
               else paths.headD []) ++ (parse tok.1).drop (j + 1)))
    ∧ (leafViolations parseClassname testIndex
        (Leaf.mk (some "text-[#332233]".data) (some 0) (some 14))).map Violation.fixed =
        ["text-gray".data]
    ∧ (leafViolations parseClassname testIndex
        (Leaf.mk (some "bg-[#f0f2f5]".data) (some 0) (some 12))).map Violation.fixed =
        ["bg-gray-layout".data] := by
  refine ⟨?_, by decide, by decide⟩
  intro parse index val s eo v hv
  have hv2 : v ∈ (extractClassnames val).filterMap (tokenViolation parse index s) := hv
  rw [List.mem_filterMap] at hv2
  obtain ⟨tok, htok, htv⟩ := hv2
  refine ⟨tok, htok, ?_⟩
  cases hbm : bracketMatch (parse tok.1) with
  | none => simp [tokenViolation, hbm] at htv
  | some ij =>
      obtain ⟨i, j⟩ := ij
      cases hlk : lookupIndex index
          (.str (((parse tok.1).drop (i + 1)).take (j - (i + 1)))) with
      | none => simp [tokenViolation, hbm, hlk] at htv
      | some paths =>
          simp only [tokenViolation, hbm, hlk, Option.some_inj] at htv
          subst htv
          have hfix : jsReplace (parse tok.1) (((parse tok.1).drop i).take (j + 1 - i))
              (replacementFor paths) =
              (parse tok.1).take i ++
                getSubstitution (((parse tok.1).drop i).take (j + 1 - i)) (parse tok.1) i
                  (replacementFor paths) ++ (parse tok.1).drop (j + 1) :=
            jsReplace_bracket _ _ i j hbm
          refine ⟨i, j, paths, rfl, hlk, hfix, ?_⟩
          intro hd
          show jsReplace (parse tok.1) (((parse tok.1).drop i).take (j + 1 - i))
              (replacementFor paths) = _
          rw [hfix, getSubstitution_no_dollar (((parse tok.1).drop i).take (j + 1 - i))
            (parse tok.1) i (replacementFor paths) hd]
          rfl

/-- A theme whose single key contains the JS replacement pattern of a
dollar followed by an ampersand; such keys are accepted without validation
and reach the replacement verbatim. -/
def c2CexColors : JSEntries := .econs "a$&b".data (.str "#abc".data) .enil

/-- C2 counterexample: with the canonical path `a$&b` for the payload
`#abc`, the program substitutes the matched text for the dollar-ampersand
(GetSubstitution of `String.prototype.replace`), producing `x-a[#abc]b` for
the token `x-[#abc]` — not `x-a$&b`, the name with the bracket-matched
substring replaced by the path itself as the claim states. -/
theorem claim_C2_counterexample :
    (leafViolations parseClassname (buildThemeIndex c2CexColors)
        (Leaf.mk (some "x-[#abc]".data) (some 0) (some 8))).map Violation.fixed =
      ["x-a[#abc]b".data]
    ∧ "x-a[#abc]b".data ≠ "x-a$&b".data := by decide

/-- The violation record reported for the leaf `text-[#332233]`. -/
def c2Viol : Violation :=
  ⟨"#332233".data, ["gray-DEFAULT".data], 0, 14, "text-gray".data⟩

/-- Witness for C2 at the leaf `text-[#332233]` under the test theme. -/
theorem claim_C2_witness :
    ∃ tok ∈ extractClassnames "text-[#332233]".data, ∃ i j paths,
      bracketMatch (parseClassname tok.1) = some (i, j) ∧
      lookupIndex testIndex
        (.str (((parseClassname tok.1).drop (i + 1)).take (j - (i + 1)))) = some paths ∧
      c2Viol.fixed = (parseClassname tok.1).take i ++
        getSubstitution (((parseClassname tok.1).drop i).take (j + 1 - i))
          (parseClassname tok.1) i
          (if "-DEFAULT".data.isSuffixOf (paths.headD []) then
            (paths.headD []).take ((paths.headD []).length - 8)
           else paths.headD []) ++ (parseClassname tok.1).drop (j + 1) ∧
      (dollarChar ∉
          (if "-DEFAULT".data.isSuffixOf (paths.headD []) then
            (paths.headD []).take ((paths.headD []).length - 8)
           else paths.headD []) →
        c2Viol.fixed = (parseClassname tok.1).take i ++
          (if "-DEFAULT".data.isSuffixOf (paths.headD []) then
            (paths.headD []).take ((paths.headD []).length - 8)
           else paths.headD []) ++ (parseClassname tok.1).drop (j + 1)) :=
  claim_C2.1 parseClassname testIndex "text-[#332233]".data 0 (some 14) c2Viol (by decide)

/-- The source text `class="flex bg-[#f0f2f5] text-[#123456]"` of the C3
offset-correctness scenario. -/
def c3Source : List Char := "class=\"flex bg-[#f0f2f5] text-[#123456]\"".data

/-- Root information for the `class` attribute of `c3Source`: the value node
spans positions 6-40 (the quoted string), one quote character is stripped on
each side. -/
def c3Root : RootInfo :=
  ⟨some "flex bg-[#f0f2f5] text-[#123456]".data, 6, 40, false, false, false⟩

/-- C3: every violation's fix range is exactly
`[leafStart + tokenRelStart, leafStart + tokenRelStart + |name|)`; on
`class="flex bg-[#f0f2f5] text-[#123456]"` the two computed ranges cover
exactly the substrings `bg-[#f0f2f5]` and `text-[#123456]` of the source,
unshifted by surrounding tokens or the quote characters. -/
theorem claim_C3 :
    (∀ (parse : List Char → List Char) (index : ThemeIndex) (val : List Char)
        (s : Nat) (eo : Option Nat) (v : Violation),
        v ∈ leafViolations parse index (Leaf.mk (some val) (some s) eo) →
        ∃ tok ∈ extractClassnames val,
          v.fixStart = s + tok.2 ∧ v.fixEnd = s + tok.2 + (parse tok.1).length)
    ∧ (ruleViolations parseClassname testIndex c3Root none).map
        (fun v => (v.fixStart, v.fixEnd)) = [(12, 24), (25, 39)]
    ∧ jsSubstring c3Source 12 24 = "bg-[#f0f2f5]".data
    ∧ jsSubstring c3Source 25 39 = "text-[#123456]".data := by
  refine ⟨?_, by decide, by decide, by decide⟩
  intro parse index val s eo v hv
  have hv2 : v ∈ (extractClassnames val).filterMap (tokenViolation parse index s) := hv
  rw [List.mem_filterMap] at hv2
  obtain ⟨tok, htok, htv⟩ := hv2
  refine ⟨tok, htok, ?_⟩
  cases hbm : bracketMatch (parse tok.1) with
  | none => simp [tokenViolation, hbm] at htv
  | some ij =>
      obtain ⟨i, j⟩ := ij
      cases hlk : lookupIndex index
          (.str (((parse tok.1).drop (i + 1)).take (j - (i + 1)))) with
      | none => simp [tokenViolation, hbm, hlk] at htv
      | some paths =>
          simp only [tokenViolation, hbm, hlk, Option.some_inj] at htv
          subst htv
          exact ⟨rfl, rfl⟩

/-- The first violation record reported on `c3Source`. -/
def c3Viol : Violation :=
  ⟨"#f0f2f5".data, ["gray-layout".data, "gray-flow".data], 12, 24, "bg-gray-layout".data⟩

/-- Witness for C3 at the first violation of the concrete scenario (leaf
content starts at position 7, one past the opening quote). -/
theorem claim_C3_witness :
    ∃ tok ∈ extractClassnames "flex bg-[#f0f2f5] text-[#123456]".data,
      c3Viol.fixStart = 7 + tok.2 ∧
      c3Viol.fixEnd = 7 + tok.2 + (parseClassname tok.1).length :=
  claim_C3.1 parseClassname testIndex "flex bg-[#f0f2f5] text-[#123456]".data 7 (some 39)
    c3Viol (by decide)

/-- C1: evaluating the rule on the end-to-end input
`<div class="flex bg-[#f0f2f5] text-[#123456] text-[#332233] bg-[#F0F2F5]">`
with the test theme yields three violation records, not four: the `Map`
lookup is case-sensitive, `#F0F2F5` is not a key of the index, so the last
token is left unchanged by the composed fixes — contradicting the claim and
the own test of the repository, which both expect four violations and
`bg-gray-layout` for the final token. -/
theorem claim_C1_code_eval :
    (ruleViolations parseClassname testIndex c1Root none).length = 3
    ∧ (ruleViolations parseClassname testIndex c1Root none).map Violation.arbitraryValue =
        ["#f0f2f5".data, "#123456".data, "#332233".data]
    ∧ lookupIndex testIndex (.str "#F0F2F5".data) = none
    ∧ applyFixes c1Source (ruleViolations parseClassname testIndex c1Root none) =
        ("<div class=\"flex bg-gray-layout text-flow text-gray bg-[#F0F2F5]\">"
          ++ "Arbitrary width!</div>").data
    ∧ applyFixes c1Source (ruleViolations parseClassname testIndex c1Root none) ≠
        ("<div class=\"flex bg-gray-layout text-flow text-gray bg-gray-layout\">"
          ++ "Arbitrary width!</div>").data := by decide

/-- C10 counterexample: a separator that matches the empty string at every
position of `"ab"` (e.g. `new RegExp("")`) yields a valid `matchAll` result
with no capture groups, yet the returned indices are `0, 0, 1, 2` — not
strictly increasing. -/
theorem claim_C10_counterexample :
    matchesOrdered [⟨0, 0, []⟩, ⟨1, 0, []⟩, ⟨2, 0, []⟩] = true
    ∧ ([⟨0, 0, []⟩, ⟨1, 0, []⟩, ⟨2, 0, []⟩] :
        List RegexMatch).all (fun m => decide (m.index + m.len ≤ ("ab".data).length)) = true
    ∧ ([⟨0, 0, []⟩, ⟨1, 0, []⟩, ⟨2, 0, []⟩] :
        List RegexMatch).all (fun m => m.groups.isEmpty) = true
    ∧ (splitWithIndex "ab".data [⟨0, 0, []⟩, ⟨1, 0, []⟩, ⟨2, 0, []⟩]).map SplitElem.index =
        [0, 0, 1, 2]
    ∧ ¬ List.Pairwise (fun a b : SplitElem => a.index < b.index)
        (splitWithIndex "ab".data [⟨0, 0, []⟩, ⟨1, 0, []⟩, ⟨2, 0, []⟩]) := by decide

/-- Witness for C10 at `"a,b"` split on a comma. -/
theorem claim_C10_witness :
    List.Pairwise (fun a b : SplitElem => a.index < b.index)
      (splitWithIndex "a,b".data [RegexMatch.mk 1 1 []]) :=
  (claim_C10 "a,b".data [RegexMatch.mk 1 1 []] (by decide)
      (by decide) (by decide)).2.1 (by decide)

end NDAV
